import Mathlib

/-!
Verification development for the translon-conservation repository.

The development shallowly embeds the two Python source files:

* `src/src/utils.py` — the conservation pipeline: `ConservationTracker`
  (bigwig score lookup with chromosome-name normalization, bounds checks and
  caught retrieval faults), `ConservationAnalyzer` (per-array summary metrics:
  mean, median, max, q75, start, sliding-window maximum, longest positive run)
  and `BEDHandler.write_scored_bed` (min-max score normalization to BED6).
* `src/notebooks/dedup.py` — `make_names_unique`, rewriting duplicate BED
  name fields by appending a `_dup` counter.

Modelling conventions: floating point values are modelled as `Option ℚ`
with `none` playing the role of NaN (the "missing" sentinel); nan-aware
numpy reductions become reductions over the non-`none` entries, returning
`none` when every entry is missing.  numpy arrays become `List (Option ℚ)`.
Python dicts built by inserting fresh keys become association lists in
insertion order.  A bigwig file becomes a chromosome catalog (name to
declared length) plus a `values` retrieval function returning `Except`,
whose `error` case models a raised exception caught by the fetcher.
-/

/-- The type of one per-base score: `none` models numpy NaN / a missing value. -/
abbrev ScoreVal : Type := Option ℚ

/-- A per-base score array, one entry per base position. -/
abbrev ScoreArray : Type := List ScoreVal

/-- Nan-aware mean, modelling `float(np.nanmean(scores))`: the arithmetic mean
of the non-missing entries, `none` (NaN) when every entry is missing. -/
def nanmean (scores : ScoreArray) : Option ℚ :=
  let xs := scores.filterMap id
  if xs.length = 0 then none else some (xs.sum / xs.length)

/-- Nan-aware maximum, modelling `float(np.nanmax(scores))`. -/
def nanmax (scores : ScoreArray) : Option ℚ :=
  match scores.filterMap id with
  | [] => none
  | x :: xs => some (xs.foldl max x)

/-- Insertion into a sorted list, used to model numpy's ascending sort of the
non-missing entries. -/
def insertSorted (x : ℚ) : List ℚ → List ℚ
  | [] => [x]
  | y :: ys => if x ≤ y then x :: y :: ys else y :: insertSorted x ys

/-- Ascending sort of a list of rationals (insertion sort). -/
def sortQ : List ℚ → List ℚ
  | [] => []
  | x :: xs => insertSorted x (sortQ xs)

/-- Nan-aware percentile with numpy's linear interpolation between order
statistics, modelling `float(np.nanpercentile(scores, p))`: with the
non-missing entries sorted ascending as `xs` of length `n`, the value at
fractional rank `h = (n-1)·p/100` is `xs⌊h⌋ + (h-⌊h⌋)·(xs⌊h⌋₊₁ - xs⌊h⌋)`. -/
def nanpercentile (scores : ScoreArray) (p : ℚ) : Option ℚ :=
  let xs := sortQ (scores.filterMap id)
  match xs with
  | [] => none
  | _ :: _ =>
    let n := xs.length
    let h : ℚ := (n - 1 : ℚ) * p / 100
    let i : ℕ := Int.toNat ⌊h⌋
    let g : ℚ := h - (i : ℚ)
    let lo := xs.getD i 0
    let hi := xs.getD (i + 1) lo
    some (lo + g * (hi - lo))

/-- Nan-aware median, modelling `float(np.nanmedian(scores))`; numpy's median
(mean of the two middle order statistics for even counts) coincides with the
50th percentile under linear interpolation. -/
def nanmedian (scores : ScoreArray) : Option ℚ :=
  nanpercentile scores 50

/-- The per-position predicate of `_get_longest_positive_run`, modelling
`not np.isnan(score) and score > 0`. -/
def is_pos : ScoreVal → Bool
  | none => false
  | some q => decide (0 < q)

/-- Tail of `ConservationAnalyzer._get_longest_positive_run`: the loop over
the scores carrying `current_run` and `max_run`. -/
def run_loop : ScoreArray → ℕ → ℕ → ℕ
  | [], _, max_run => max_run
  | score :: rest, current_run, max_run =>
    if is_pos score then
      run_loop rest (current_run + 1) (max (max_run) (current_run + 1))
    else
      run_loop rest 0 max_run

/-- `ConservationAnalyzer._get_longest_positive_run`: longest continuous run
of positive scores, scanned with a running counter that resets on a missing
or non-positive value. -/
def get_longest_positive_run (scores : ScoreArray) : ℕ :=
  run_loop scores 0 0

/-- `ConservationAnalyzer._get_window_scores`: the nan-aware means of all
sliding windows of length `window_size`; when the array is shorter than the
window, the single nan-aware mean of the whole array. -/
def get_window_scores (window_size : ℕ) (scores : ScoreArray) : List (Option ℚ) :=
  if scores.length < window_size then [nanmean scores]
  else
    (List.range (scores.length - window_size + 1)).map
      (fun i => nanmean ((scores.drop i).take window_size))

/-- One step of Python's builtin `max` on floats: the accumulator is replaced
exactly when the comparison `x > current` is true, which is false whenever
either operand is NaN. -/
def py_max_step (best x : Option ℚ) : Option ℚ :=
  match best, x with
  | some b, some v => if b < v then some v else some b
  | _, _ => best

/-- Python's builtin `max` over a list of floats (`none` modelling NaN);
empty input is never produced by the analyzer (the code guards with
`if window_scores`). -/
def py_max : List (Option ℚ) → Option ℚ
  | [] => none
  | x :: xs => xs.foldl py_max_step x

/-- The `max_window` metric value: `max(window_scores) if window_scores
else np.nan` from `_analyze_score_array`. -/
def max_window_value (window_size : ℕ) (scores : ScoreArray) : Option ℚ :=
  match get_window_scores window_size scores with
  | [] => none
  | w => py_max w

/-- `ConservationAnalyzer._analyze_score_array`: the per-array metric mapping,
as an association list in the dict's insertion order.  The integer
`longest_positive_run` value is stored as a (defined) rational.  An empty
array yields the empty mapping. -/
def analyze_score_array (window_size : ℕ) (scores : ScoreArray) (pfx : String) :
    List (String × Option ℚ) :=
  if scores.length = 0 then []
  else
    [ (pfx ++ "_mean", nanmean scores),
      (pfx ++ "_median", nanmedian scores),
      (pfx ++ "_max", nanmax scores),
      (pfx ++ "_q75", nanpercentile scores 75),
      (pfx ++ "_start", nanmean (scores.take 15)),
      (pfx ++ "_max_window", max_window_value window_size scores),
      (pfx ++ "_longest_positive_run", some ((get_longest_positive_run scores : ℕ) : ℚ)) ]

/-- `ConservationAnalyzer.calculate_metrics`: merge the per-frame metric
mappings (prefix `phylocsf_frame{N}`) and, when the PhyloP array is present,
the `phylop`-prefixed mapping.  Dict `update` is modelled by append: all
prefixes are distinct, so no key is ever overwritten. -/
def calculate_metrics (window_size : ℕ) (phylocsf_scores : List (ℕ × ScoreArray))
    (phylop_scores : Option ScoreArray) : List (String × Option ℚ) :=
  let frame_metrics := phylocsf_scores.foldl
    (fun acc p => acc ++ analyze_score_array window_size p.2 ("phylocsf_frame" ++ toString p.1))
    []
  match phylop_scores with
  | some s => frame_metrics ++ analyze_score_array window_size s "phylop"
  | none => frame_metrics

/-- Python's `str.startswith`: character-level prefix test on the two
strings' character lists. -/
def startswith (s p : String) : Bool :=
  p.data.isPrefixOf s.data

/-- The chromosome-name normalization performed inside
`ConservationTracker._get_scores`:
`chrom = f"chr{chrom}" if not chrom.startswith('chr') else chrom`. -/
def normalize_chrom (chrom : String) : String :=
  if startswith chrom "chr" then chrom else "chr" ++ chrom

/-- A bigwig track as seen through pyBigWig: a chromosome catalog mapping a
declared chromosome name to its declared length, and a retrieval function for
per-base values on a region; `Except.error` models a raised exception (I/O or
malformed backing file), caught by the fetcher. -/
structure BigWigFile where
  chroms_list : List (String × ℕ)
  values : String → ℤ → ℤ → Except String ScoreArray

/-- `ConservationTracker._get_scores`: normalize the chromosome name, require
it to be declared in the track's catalog, require `0 ≤ start` and
`stop ≤ declared length`, then retrieve the values; a validation failure or a
caught retrieval fault yields `none` ("unavailable"), never an exception. -/
def get_scores (bw_file : BigWigFile) (chrom : String) (start stop : ℤ) :
    Option ScoreArray :=
  let c := normalize_chrom chrom
  match bw_file.chroms_list.lookup c with
  | none => none
  | some chrom_length =>
    if start < 0 ∨ (chrom_length : ℤ) < stop then none
    else
      match bw_file.values c start stop with
      | Except.ok scores => some scores
      | Except.error _ => none

/-- `ConservationTracker`'s loaded state: the PhyloCSF tracks keyed by
`f"{strand}{frame}"` (only the combinations whose files existed), and the
PhyloP track. -/
structure Tracker where
  phylocsf_tracks : List (String × BigWigFile)
  phylop_track : BigWigFile

/-- `ConservationTracker.get_conservation_scores`: for each frame 1..3 whose
`{strand}{frame}` track is loaded, look the region up and keep the frames
whose lookup succeeded; the PhyloP lookup result is passed through as is. -/
def get_conservation_scores (t : Tracker) (chrom : String) (start stop : ℤ)
    (strand : String) : List (ℕ × ScoreArray) × Option ScoreArray :=
  let phylocsf_scores := [1, 2, 3].filterMap (fun frame =>
    match t.phylocsf_tracks.lookup (strand ++ toString frame) with
    | none => none
    | some bw => (get_scores bw chrom start stop).map (fun s => (frame, s)))
  (phylocsf_scores, get_scores t.phylop_track chrom start stop)

/-- One row of the dataframe handed to `BEDHandler.write_scored_bed`: the six
BED columns that are selected for output plus the floating-point
`conservation_score` column that is normalized. -/
structure BedRow where
  chrom : String
  chromStart : ℤ
  chromEnd : ℤ
  name : String
  conservation_score : ℚ
  strand : String

/-- A polars column minimum over a non-empty column (the claims under study
only concern non-empty dataframes; polars yields null on an empty one). -/
def col_min : List ℚ → ℚ
  | [] => 0
  | x :: xs => xs.foldl min x

/-- A polars column maximum over a non-empty column. -/
def col_max : List ℚ → ℚ
  | [] => 0
  | x :: xs => xs.foldl max x

/-- Clamping to `[lo, hi]`, modelling polars `.clip(lo, hi)` on integers. -/
def int_clip (lo hi x : ℤ) : ℤ :=
  max lo (min hi x)

/-- The divisor of the min-max normalization in `write_scored_bed`:
`pl.col(score_col).max() - pl.col(score_col).min()` over the full column. -/
def score_denominator (col : List ℚ) : ℚ :=
  col_max col - col_min col

/-- The score expression of `write_scored_bed`:
`((v - min) / (max - min) * scale_factor).floor().cast(Int64).clip(0, 1000)`.
Rational division is total with `x / 0 = 0`, so the unguarded `max = min`
case produces `0` here where floating point would produce NaN. -/
def normalize_score (col : List ℚ) (scale_factor v : ℚ) : ℤ :=
  int_clip 0 1000 ⌊(v - col_min col) / (col_max col - col_min col) * scale_factor⌋

/-- `BEDHandler.write_scored_bed`: add the normalized integer `score` column
(min and max taken over the full column being written) and select exactly the
six BED columns chrom, chromStart, chromEnd, name, score, strand, keeping the
row order. -/
def write_scored_bed (df : List BedRow) (scale_factor : ℚ) :
    List (String × ℤ × ℤ × String × ℤ × String) :=
  let col := df.map (fun r => r.conservation_score)
  df.map (fun r =>
    (r.chrom, r.chromStart, r.chromEnd, r.name,
      normalize_score col scale_factor r.conservation_score, r.strand))

/-- Read the counter of a name in `dedup.py`'s `defaultdict(int)`:
a missing key reads as `0`. -/
def count_get (counts : List (String × ℕ)) (name : String) : ℕ :=
  (counts.lookup name).getD 0

/-- Store a counter value for a name, keeping all other keys unchanged. -/
def count_set : List (String × ℕ) → String → ℕ → List (String × ℕ)
  | [], name, c => [(name, c)]
  | (k, v) :: rest, name, c =>
    if k = name then (name, c) :: rest else (k, v) :: count_set rest name c

/-- The loop body of `make_names_unique` over the (already split) lines:
for a line with at least four fields, bump the counter of its fourth field
and, when this is not its first occurrence, rewrite the fourth field to
`f"{name}_dup{count-1}"`; shorter lines pass through and leave the counters
untouched. -/
def process_lines (counts : List (String × ℕ)) : List (List String) → List (List String)
  | [] => []
  | fields :: rest =>
    if 4 ≤ fields.length then
      let name := fields.getD 3 ""
      let counts' := count_set counts name (count_get counts name + 1)
      let c := count_get counts name + 1
      if 1 < c then
        fields.set 3 (name ++ "_dup" ++ toString (c - 1)) :: process_lines counts' rest
      else
        fields :: process_lines counts' rest
    else
      fields :: process_lines counts rest

/-- `make_names_unique` from `notebooks/dedup.py`, at the level of
tab-split field lists (one inner list per input line, in input order). -/
def make_names_unique (lines : List (List String)) : List (List String) :=
  process_lines [] lines

/-- The seven metric-name suffixes appended to an array's prefix by
`_analyze_score_array`, in insertion order. -/
def metric_suffixes : List String :=
  ["_mean", "_median", "_max", "_q75", "_start", "_max_window",
    "_longest_positive_run"]

/-- Specification-side rename (following the spec's words for the name
deduplicator): the first occurrence of a name is left unmodified and the
k-th duplicate occurrence (1-based) becomes `name_dup{k}`, where occurrences
are counted among the previously seen name fields. -/
def spec_rename (pre : List String) : List (List String) → List (List String)
  | [] => []
  | fields :: rest =>
    if 4 ≤ fields.length then
      let name := fields.getD 3 ""
      let k := pre.count name
      (if k = 0 then fields else fields.set 3 (name ++ "_dup" ++ toString k)) ::
        spec_rename (pre ++ [name]) rest
    else
      fields :: spec_rename pre rest

/-- Specification-side score normalization (following the spec's words):
`(value − min) / (max − min) × 1000`, floored, clamped to `[0, 1000]`. -/
def spec_minmax_score (mn mx v : ℚ) : ℤ :=
  int_clip 0 1000 ⌊(v - mn) / (mx - mn) * 1000⌋

/-- A concrete five-field BED line used as a test vector. -/
def c10_line : List String :=
  ["chr1", "0", "10", "a", "x"]

/-! ### Helper lemmas: strings and association lists -/

theorem string_append_cancel_left {s a b : String} (h : s ++ a = s ++ b) : a = b := by
  have hd := congrArg String.data h
  rw [String.data_append, String.data_append] at hd
  have h2 := List.append_cancel_left hd
  cases a; cases b; exact congrArg String.mk h2

theorem append_beq_false (s : String) {a b : String} (h : a ≠ b) :
    ((s ++ a) == (s ++ b)) = false :=
  beq_eq_false_iff_ne.2 (fun he => h (string_append_cancel_left he))

theorem isPrefixOf_append_self (l t : List Char) : l.isPrefixOf (l ++ t) = true := by
  induction l with
  | nil => simp [List.isPrefixOf]
  | cons a as ih => simp [List.isPrefixOf, ih]

theorem startswith_append_self (p s : String) : startswith (p ++ s) p = true := by
  simp [startswith, String.data_append, isPrefixOf_append_self]

theorem lookup_eq_none_of_not_mem {β : Type} {l : List (String × β)} {c : String}
    (h : c ∉ l.map Prod.fst) : l.lookup c = none := by
  induction l with
  | nil => rfl
  | cons kv rest ih =>
    simp only [List.map_cons, List.mem_cons] at h
    push_neg at h
    simp [List.lookup, beq_eq_false_iff_ne.2 h.1, ih h.2]

theorem mem_of_lookup_eq_some {β : Type} {l : List (String × β)} {c : String} {v : β}
    (h : l.lookup c = some v) : c ∈ l.map Prod.fst := by
  induction l with
  | nil => simp [List.lookup] at h
  | cons kv rest ih =>
    by_cases hc : c = kv.1
    · simp [hc]
    · obtain ⟨k, w⟩ := kv
      simp only at hc
      simp only [List.lookup, beq_eq_false_iff_ne.2 hc] at h
      simp [ih h]

theorem foldl_append_flatten {α β : Type} (f : α → List β) :
    ∀ (l : List α) (init : List β),
      l.foldl (fun acc p => acc ++ f p) init = init ++ (l.map f).flatten := by
  intro l
  induction l with
  | nil => simp
  | cons x xs ih => intro init; simp [ih, List.append_assoc]

/-! ### Helper lemmas: the metric mapping's keys -/

theorem analyze_score_array_of_ne_nil (w : ℕ) (scores : ScoreArray) (pfx : String)
    (h : scores ≠ []) :
    analyze_score_array w scores pfx =
      [ (pfx ++ "_mean", nanmean scores),
        (pfx ++ "_median", nanmedian scores),
        (pfx ++ "_max", nanmax scores),
        (pfx ++ "_q75", nanpercentile scores 75),
        (pfx ++ "_start", nanmean (scores.take 15)),
        (pfx ++ "_max_window", max_window_value w scores),
        (pfx ++ "_longest_positive_run", some ((get_longest_positive_run scores : ℕ) : ℚ)) ] := by
  have hl : ¬ scores.length = 0 := by simpa [List.length_eq_zero] using h
  simp [analyze_score_array, hl]

theorem analyze_score_array_key_mem {w : ℕ} {scores : ScoreArray} {pfx : String}
    {k : String} (h : k ∈ (analyze_score_array w scores pfx).map Prod.fst) :
    ∃ s ∈ metric_suffixes, k = pfx ++ s := by
  by_cases hs : scores = []
  · simp [hs, analyze_score_array] at h
  · rw [analyze_score_array_of_ne_nil w scores pfx hs] at h
    simp only [List.map_cons, List.map_nil, List.mem_cons, List.not_mem_nil, or_false] at h
    rcases h with h | h | h | h | h | h | h <;>
      exact ⟨_, by simp [metric_suffixes], h⟩

theorem calculate_metrics_none (w : ℕ) (pcsf : List (ℕ × ScoreArray)) :
    calculate_metrics w pcsf none =
      (pcsf.map (fun q =>
        analyze_score_array w q.2 ("phylocsf_frame" ++ toString q.1))).flatten := by
  simp [calculate_metrics, foldl_append_flatten]

theorem calculate_metrics_some (w : ℕ) (pcsf : List (ℕ × ScoreArray)) (b : ScoreArray) :
    calculate_metrics w pcsf (some b) =
      (pcsf.map (fun q =>
        analyze_score_array w q.2 ("phylocsf_frame" ++ toString q.1))).flatten ++
      analyze_score_array w b "phylop" := by
  simp [calculate_metrics, foldl_append_flatten]

theorem frames_key_mem {w : ℕ} {pcsf : List (ℕ × ScoreArray)} {k : String}
    (h : k ∈ ((pcsf.map (fun q =>
      analyze_score_array w q.2 ("phylocsf_frame" ++ toString q.1))).flatten).map Prod.fst) :
    ∃ q ∈ pcsf, ∃ s ∈ metric_suffixes, k = "phylocsf_frame" ++ toString q.1 ++ s := by
  simp only [List.map_flatten, List.mem_flatten, List.map_map, List.mem_map] at h
  obtain ⟨lk, ⟨q, hq, hlk⟩, hk⟩ := h
  subst hlk
  obtain ⟨s, hs, hks⟩ := analyze_score_array_key_mem (by simpa using hk)
  exact ⟨q, hq, s, hs, hks⟩

theorem calculate_metrics_key_mem {w : ℕ} {pcsf : List (ℕ × ScoreArray)}
    {p : Option ScoreArray} {k : String}
    (h : k ∈ (calculate_metrics w pcsf p).map Prod.fst) :
    (∃ q ∈ pcsf, ∃ s ∈ metric_suffixes, k = "phylocsf_frame" ++ toString q.1 ++ s) ∨
    (∃ b, p = some b ∧ ∃ s ∈ metric_suffixes, k = "phylop" ++ s) := by
  cases p with
  | none =>
    rw [calculate_metrics_none] at h
    exact Or.inl (frames_key_mem h)
  | some b =>
    rw [calculate_metrics_some] at h
    simp only [List.map_append, List.mem_append] at h
    rcases h with h | h
    · exact Or.inl (frames_key_mem h)
    · obtain ⟨s, hs, hks⟩ := analyze_score_array_key_mem h
      exact Or.inr ⟨b, rfl, s, hs, hks⟩

theorem frame_prefix_key_not_mem (w : ℕ) (pcsf : List (ℕ × ScoreArray))
    (p : Option ScoreArray) (f : ℕ)
    (hframes : ∀ q ∈ pcsf, q.1 = 1 ∨ q.1 = 2 ∨ q.1 = 3)
    (hf : f = 1 ∨ f = 2 ∨ f = 3)
    (habs : ∀ a, (f, a) ∉ pcsf) :
    ∀ s ∈ metric_suffixes,
      ("phylocsf_frame" ++ toString f ++ s) ∉ (calculate_metrics w pcsf p).map Prod.fst := by
  intro s hs hmem
  simp only [metric_suffixes, List.mem_cons, List.not_mem_nil, or_false] at hs
  rcases calculate_metrics_key_mem hmem with ⟨q, hq, s', hs', heq⟩ | ⟨b, hp, s', hs', heq⟩
  · have hfr := hframes q hq
    have hne : q.1 ≠ f := by
      intro he
      have hqe : (f, q.2) = q := by rw [← he]
      exact habs q.2 (hqe ▸ hq)
    simp only [metric_suffixes, List.mem_cons, List.not_mem_nil, or_false] at hs'
    rcases hf with rfl | rfl | rfl <;>
      rcases hfr with hq1 | hq1 | hq1 <;>
      first
        | exact hne hq1
        | (rw [hq1] at heq
           rcases hs with rfl | rfl | rfl | rfl | rfl | rfl | rfl <;>
             rcases hs' with rfl | rfl | rfl | rfl | rfl | rfl | rfl <;>
             exact absurd heq (by decide))
  · simp only [metric_suffixes, List.mem_cons, List.not_mem_nil, or_false] at hs'
    rcases hf with rfl | rfl | rfl <;>
      rcases hs with rfl | rfl | rfl | rfl | rfl | rfl | rfl <;>
      rcases hs' with rfl | rfl | rfl | rfl | rfl | rfl | rfl <;>
      exact absurd heq (by decide)

theorem phylop_key_not_mem (w : ℕ) (pcsf : List (ℕ × ScoreArray))
    (hframes : ∀ q ∈ pcsf, q.1 = 1 ∨ q.1 = 2 ∨ q.1 = 3) :
    ∀ s ∈ metric_suffixes,
      ("phylop" ++ s) ∉ (calculate_metrics w pcsf none).map Prod.fst := by
  intro s hs hmem
  simp only [metric_suffixes, List.mem_cons, List.not_mem_nil, or_false] at hs
  rcases calculate_metrics_key_mem hmem with ⟨q, hq, s', hs', heq⟩ | ⟨b, hp, _⟩
  · have hfr := hframes q hq
    simp only [metric_suffixes, List.mem_cons, List.not_mem_nil, or_false] at hs'
    rcases hfr with hq1 | hq1 | hq1 <;>
      rw [hq1] at heq <;>
      rcases hs with rfl | rfl | rfl | rfl | rfl | rfl | rfl <;>
      rcases hs' with rfl | rfl | rfl | rfl | rfl | rfl | rfl <;>
      exact absurd heq.symm (by decide)
  · cases hp

/-! ### Helper lemmas: lookups in the metric mapping -/

theorem analyze_score_array_length (w : ℕ) (scores : ScoreArray) (pfx : String)
    (h : scores ≠ []) : (analyze_score_array w scores pfx).length = 7 := by
  rw [analyze_score_array_of_ne_nil w scores pfx h]
  rfl

theorem analyze_lookup_max_window (w : ℕ) (scores : ScoreArray) (pfx : String)
    (h : scores ≠ []) :
    (analyze_score_array w scores pfx).lookup (pfx ++ "_max_window") =
      some (max_window_value w scores) := by
  rw [analyze_score_array_of_ne_nil w scores pfx h]
  simp [List.lookup,
    append_beq_false pfx (show "_max_window" ≠ "_mean" by decide),
    append_beq_false pfx (show "_max_window" ≠ "_median" by decide),
    append_beq_false pfx (show "_max_window" ≠ "_max" by decide),
    append_beq_false pfx (show "_max_window" ≠ "_q75" by decide),
    append_beq_false pfx (show "_max_window" ≠ "_start" by decide)]

theorem analyze_lookup_longest_run (w : ℕ) (scores : ScoreArray) (pfx : String)
    (h : scores ≠ []) :
    (analyze_score_array w scores pfx).lookup (pfx ++ "_longest_positive_run") =
      some (some ((get_longest_positive_run scores : ℕ) : ℚ)) := by
  rw [analyze_score_array_of_ne_nil w scores pfx h]
  simp [List.lookup,
    append_beq_false pfx (show "_longest_positive_run" ≠ "_mean" by decide),
    append_beq_false pfx (show "_longest_positive_run" ≠ "_median" by decide),
    append_beq_false pfx (show "_longest_positive_run" ≠ "_max" by decide),
    append_beq_false pfx (show "_longest_positive_run" ≠ "_q75" by decide),
    append_beq_false pfx (show "_longest_positive_run" ≠ "_start" by decide),
    append_beq_false pfx (show "_longest_positive_run" ≠ "_max_window" by decide)]

/-! ### Helper lemmas: Python max over floats -/

theorem py_max_foldl (xs : List (Option ℚ)) : ∀ c : ℚ, (∀ x ∈ xs, x.isSome = true) →
    ∃ d, xs.foldl py_max_step (some c) = some d ∧ c ≤ d ∧ (d = c ∨ some d ∈ xs) ∧
      ∀ m : ℚ, some m ∈ xs → m ≤ d := by
  induction xs with
  | nil => exact fun c _ => ⟨c, rfl, le_refl c, Or.inl rfl, by simp⟩
  | cons v rest ih =>
    intro c h
    have hv : v.isSome = true := h v (by simp)
    obtain ⟨u, rfl⟩ := Option.isSome_iff_exists.1 hv
    have hrest : ∀ x ∈ rest, x.isSome = true := fun x hx => h x (by simp [hx])
    by_cases hcu : c < u
    · obtain ⟨d, hfold, hle, hmem, hub⟩ := ih u hrest
      refine ⟨d, by simpa [py_max_step, hcu] using hfold, le_of_lt (lt_of_lt_of_le hcu hle), ?_, ?_⟩
      · rcases hmem with rfl | hm
        · exact Or.inr (by simp)
        · exact Or.inr (by simp [hm])
      · intro m hm
        rcases List.mem_cons.1 hm with he | hm'
        · rw [Option.some.inj he]
          exact hle
        · exact hub m hm'
    · obtain ⟨d, hfold, hle, hmem, hub⟩ := ih c hrest
      refine ⟨d, by simpa [py_max_step, hcu] using hfold, hle, ?_, ?_⟩
      · rcases hmem with rfl | hm
        · exact Or.inl rfl
        · exact Or.inr (by simp [hm])
      · intro m hm
        rcases List.mem_cons.1 hm with he | hm'
        · rw [Option.some.inj he]
          exact le_trans (le_of_not_lt hcu) hle
        · exact hub m hm'

theorem py_max_spec (l : List (Option ℚ)) (hne : l ≠ [])
    (h : ∀ x ∈ l, x.isSome = true) :
    ∃ q, py_max l = some q ∧ some q ∈ l ∧ ∀ m : ℚ, some m ∈ l → m ≤ q := by
  cases l with
  | nil => exact absurd rfl hne
  | cons x xs =>
    have hx : x.isSome = true := h x (by simp)
    obtain ⟨c, rfl⟩ := Option.isSome_iff_exists.1 hx
    obtain ⟨d, hfold, hle, hmem, hub⟩ := py_max_foldl xs c (fun x hx => h x (by simp [hx]))
    refine ⟨d, by simpa [py_max] using hfold, ?_, ?_⟩
    · rcases hmem with rfl | hm
      · simp
      · simp [hm]
    · intro m hm
      rcases List.mem_cons.1 hm with he | hm'
      · rw [Option.some.inj he]
        exact hle
      · exact hub m hm'

/-! ### Helper lemmas: sliding windows -/

theorem get_window_scores_of_ge (w : ℕ) (scores : ScoreArray)
    (h : ¬ scores.length < w) :
    get_window_scores w scores =
      (List.range (scores.length - w + 1)).map
        (fun i => nanmean ((scores.drop i).take w)) := by
  simp [get_window_scores, h]

theorem get_window_scores_ne_nil_of_ge (w : ℕ) (scores : ScoreArray)
    (h : ¬ scores.length < w) : get_window_scores w scores ≠ [] := by
  rw [get_window_scores_of_ge w scores h]
  intro hc
  have := congrArg List.length hc
  simp at this

theorem max_window_value_of_ge (w : ℕ) (scores : ScoreArray)
    (h : ¬ scores.length < w) :
    max_window_value w scores = py_max (get_window_scores w scores) := by
  have hne := get_window_scores_ne_nil_of_ge w scores h
  unfold max_window_value
  cases hgw : get_window_scores w scores with
  | nil => exact absurd hgw hne
  | cons a as => rfl

theorem max_window_value_of_lt (w : ℕ) (scores : ScoreArray)
    (h : scores.length < w) :
    max_window_value w scores = nanmean scores := by
  unfold max_window_value
  rw [show get_window_scores w scores = [nanmean scores] by simp [get_window_scores, h]]
  rfl

/-! ### Helper lemmas: longest positive run -/

/-- Length of the positive run starting at the head of the array. -/
def lead_run : ScoreArray → ℕ
  | [] => 0
  | v :: rest => if is_pos v then lead_run rest + 1 else 0

/-- Length of the longest positive run anywhere in the array (reference
recursion used to characterize the scanning loop). -/
def best_run : ScoreArray → ℕ
  | [] => 0
  | v :: rest => max (lead_run (v :: rest)) (best_run rest)

theorem lead_run_le_best_run : ∀ l : ScoreArray, lead_run l ≤ best_run l
  | [] => le_refl 0
  | _ :: _ => le_max_left _ _

theorem best_run_le_cons (v : ScoreVal) (l : ScoreArray) :
    best_run l ≤ best_run (v :: l) :=
  le_max_right _ _

theorem run_loop_eq : ∀ (l : ScoreArray) (cur m : ℕ), cur ≤ m →
    run_loop l cur m = max m (max (cur + lead_run l) (best_run l)) := by
  intro l
  induction l with
  | nil =>
    intro cur m hcm
    simp only [run_loop, lead_run, best_run]
    omega
  | cons v rest ih =>
    intro cur m hcm
    have hlb := lead_run_le_best_run rest
    by_cases hv : is_pos v = true
    · rw [show run_loop (v :: rest) cur m = run_loop rest (cur + 1) (max m (cur + 1)) by
        simp [run_loop, hv]]
      rw [ih (cur + 1) (max m (cur + 1)) (le_max_right m (cur + 1))]
      simp only [lead_run, best_run, hv, if_true]
      omega
    · have hv' : is_pos v = false := by simpa using hv
      rw [show run_loop (v :: rest) cur m = run_loop rest 0 m by simp [run_loop, hv']]
      rw [ih 0 m (Nat.zero_le m)]
      simp only [lead_run, best_run, hv', Bool.false_eq_true, if_false]
      omega

theorem get_longest_positive_run_eq_best_run (scores : ScoreArray) :
    get_longest_positive_run scores = best_run scores := by
  have h := run_loop_eq scores 0 0 (le_refl 0)
  have hlb := lead_run_le_best_run scores
  unfold get_longest_positive_run
  omega

theorem lead_run_eq_takeWhile (l : ScoreArray) :
    lead_run l = (l.takeWhile is_pos).length := by
  induction l with
  | nil => rfl
  | cons v rest ih =>
    by_cases hv : is_pos v = true
    · simp [lead_run, hv, List.takeWhile_cons, ih]
    · simp [lead_run, hv, List.takeWhile_cons]

theorem lead_run_le_length (l : ScoreArray) : lead_run l ≤ l.length := by
  rw [lead_run_eq_takeWhile]
  exact (List.takeWhile_sublist is_pos).length_le

theorem best_run_exists : ∀ l : ScoreArray,
    ∃ pre run post, l = pre ++ run ++ post ∧ run.length = best_run l ∧
      ∀ v ∈ run, is_pos v = true := by
  intro l
  induction l with
  | nil => exact ⟨[], [], [], rfl, rfl, by simp⟩
  | cons v rest ih =>
    rcases le_total (lead_run (v :: rest)) (best_run rest) with hle | hle
    · obtain ⟨pre, run, post, hsplit, hlen, hpos⟩ := ih
      refine ⟨v :: pre, run, post, by simp [hsplit], ?_, hpos⟩
      rw [hlen, best_run, max_eq_right hle]
    · refine ⟨[], (v :: rest).takeWhile is_pos, (v :: rest).dropWhile is_pos, ?_, ?_, ?_⟩
      · simp [List.takeWhile_append_dropWhile]
      · rw [← lead_run_eq_takeWhile, best_run, max_eq_left hle]
      · exact fun x hx => List.mem_takeWhile_imp hx

theorem pos_run_le_lead (run post : ScoreArray)
    (h : ∀ v ∈ run, is_pos v = true) : run.length ≤ lead_run (run ++ post) := by
  induction run with
  | nil => simp
  | cons v rest ih =>
    have hv : is_pos v = true := h v (by simp)
    have hr := ih (fun x hx => h x (by simp [hx]))
    rw [List.cons_append, List.length_cons,
      show lead_run (v :: (rest ++ post)) = lead_run (rest ++ post) + 1 from by
        simp [lead_run, hv]]
    omega

theorem best_run_ub : ∀ (pre run post : ScoreArray),
    (∀ v ∈ run, is_pos v = true) → run.length ≤ best_run (pre ++ run ++ post) := by
  intro pre
  induction pre with
  | nil =>
    intro run post hpos
    calc run.length ≤ lead_run (run ++ post) := pos_run_le_lead run post hpos
      _ ≤ best_run (run ++ post) := lead_run_le_best_run _
      _ = best_run ([] ++ run ++ post) := by simp
  | cons a pre' ih =>
    intro run post hpos
    calc run.length ≤ best_run (pre' ++ run ++ post) := ih run post hpos
      _ ≤ best_run (a :: (pre' ++ run ++ post)) := best_run_le_cons a _
      _ = best_run (a :: pre' ++ run ++ post) := by simp

/-! ### Helper lemmas: name deduplication counters -/

theorem count_get_set_self (m : List (String × ℕ)) (n : String) (c : ℕ) :
    count_get (count_set m n c) n = c := by
  induction m with
  | nil => simp [count_set, count_get, List.lookup]
  | cons kv rest ih =>
    by_cases hk : kv.1 = n
    · obtain ⟨k, v⟩ := kv
      simp only at hk
      simp [count_set, hk, count_get, List.lookup]
    · obtain ⟨k, v⟩ := kv
      simp only at hk
      simp only [count_set, if_neg hk]
      simpa [count_get, List.lookup, beq_eq_false_iff_ne.2 (Ne.symm hk)] using ih

theorem count_get_set_ne (m : List (String × ℕ)) (n n' : String) (c : ℕ)
    (h : n' ≠ n) : count_get (count_set m n c) n' = count_get m n' := by
  induction m with
  | nil => simp [count_set, count_get, List.lookup, beq_eq_false_iff_ne.2 h]
  | cons kv rest ih =>
    obtain ⟨k, v⟩ := kv
    by_cases hk : k = n
    · subst hk
      simp [count_set, count_get, List.lookup, beq_eq_false_iff_ne.2 h]
    · simp only [count_set, if_neg hk]
      by_cases hk' : n' = k
      · subst hk'
        simp [count_get, List.lookup]
      · simpa [count_get, List.lookup, beq_eq_false_iff_ne.2 hk'] using ih

theorem process_lines_eq_spec_rename :
    ∀ (lines : List (List String)) (counts : List (String × ℕ)) (pre : List String),
      (∀ n, count_get counts n = pre.count n) →
      process_lines counts lines = spec_rename pre lines := by
  intro lines
  induction lines with
  | nil => intro counts pre _; rfl
  | cons fields rest ih =>
    intro counts pre hinv
    by_cases h4 : 4 ≤ fields.length
    · have hname := hinv (fields.getD 3 "")
      have hinv' : ∀ n, count_get
          (count_set counts (fields.getD 3 "") (count_get counts (fields.getD 3 "") + 1)) n =
          (pre ++ [fields.getD 3 ""]).count n := by
        intro n
        by_cases hn : n = fields.getD 3 ""
        · subst hn
          rw [count_get_set_self, hname]
          simp [List.count_append]
        · rw [count_get_set_ne _ _ _ _ hn, hinv n]
          have hz : List.count n [fields.getD 3 ""] = 0 :=
            List.count_eq_zero.2 (by simp only [List.mem_singleton]; exact hn)
          rw [List.count_append, hz]
          omega
      by_cases hz : pre.count (fields.getD 3 "") = 0
      · have hc : ¬ 1 < count_get counts (fields.getD 3 "") + 1 := by omega
        simp only [process_lines, spec_rename, if_pos h4, if_neg hc, if_pos hz]
        exact congrArg _ (ih _ _ hinv')
      · have hc : 1 < count_get counts (fields.getD 3 "") + 1 := by omega
        have harg : count_get counts (fields.getD 3 "") + 1 - 1 =
            pre.count (fields.getD 3 "") := by omega
        simp only [process_lines, spec_rename, if_pos h4, if_pos hc, if_neg hz]
        rw [harg]
        exact congrArg _ (ih _ _ hinv')
    · simp only [process_lines, spec_rename, if_neg h4]
      exact congrArg _ (ih _ _ hinv)

theorem process_lines_shape :
    ∀ (lines : List (List String)) (counts : List (String × ℕ)),
      List.Forall₂ (fun a b => a.length = b.length ∧
        (∀ j, j ≠ 3 → a.getD j "" = b.getD j "") ∧
        (a.length < 4 → b = a)) lines (process_lines counts lines) := by
  intro lines
  induction lines with
  | nil => intro counts; exact List.Forall₂.nil
  | cons fields rest ih =>
    intro counts
    by_cases h4 : 4 ≤ fields.length
    · by_cases hc : 1 < count_get counts (fields.getD 3 "") + 1
      · simp only [process_lines, if_pos h4, if_pos hc]
        refine List.Forall₂.cons ⟨(List.length_set fields 3 _).symm, ?_, ?_⟩ (ih _)
        · intro j hj
          simp [List.getD, List.getElem?_set_ne (fun h => hj h.symm)]
        · intro hlt
          exact absurd h4 (by omega)
      · simp only [process_lines, if_pos h4, if_neg hc]
        exact List.Forall₂.cons ⟨rfl, fun _ _ => rfl, fun _ => rfl⟩ (ih _)
    · simp only [process_lines, if_neg h4]
      exact List.Forall₂.cons ⟨rfl, fun _ _ => rfl, fun _ => rfl⟩ (ih _)

/-! ### Helper lemmas: BED score column -/

theorem foldl_min_const (c : ℚ) : ∀ (xs : List ℚ) (x : ℚ), x = c →
    (∀ y ∈ xs, y = c) → xs.foldl min x = c := by
  intro xs
  induction xs with
  | nil => intro x hx _; simpa using hx
  | cons y ys ih =>
    intro x hx h
    have hy : y = c := h y (by simp)
    have : min x y = c := by rw [hx, hy, min_self]
    exact ih _ this (fun z hz => h z (by simp [hz]))

theorem foldl_max_const (c : ℚ) : ∀ (xs : List ℚ) (x : ℚ), x = c →
    (∀ y ∈ xs, y = c) → xs.foldl max x = c := by
  intro xs
  induction xs with
  | nil => intro x hx _; simpa using hx
  | cons y ys ih =>
    intro x hx h
    have hy : y = c := h y (by simp)
    have : max x y = c := by rw [hx, hy, max_self]
    exact ih _ this (fun z hz => h z (by simp [hz]))

theorem col_min_const (col : List ℚ) (c : ℚ) (hne : col ≠ [])
    (h : ∀ y ∈ col, y = c) : col_min col = c := by
  cases col with
  | nil => exact absurd rfl hne
  | cons x xs =>
    exact foldl_min_const c xs x (h x (by simp)) (fun z hz => h z (by simp [hz]))

theorem col_max_const (col : List ℚ) (c : ℚ) (hne : col ≠ [])
    (h : ∀ y ∈ col, y = c) : col_max col = c := by
  cases col with
  | nil => exact absurd rfl hne
  | cons x xs =>
    exact foldl_max_const c xs x (h x (by simp)) (fun z hz => h z (by simp [hz]))

/-! ### Claim theorems -/

/-- C1 counterexample: a fully-loaded bundle (all three frames and the
base-level array present and non-empty) does NOT yield 24 metric keys:
`_analyze_score_array` emits 7 named metrics per array (mean, median, max,
q75, start, max_window, longest_positive_run), so the count is 28, with all
28 keys distinct. -/
theorem C1_counterexample :
    (calculate_metrics 30 [(1, [some 1]), (2, [some 1]), (3, [some 1])]
      (some [some 1])).length ≠ 24 ∧
    (calculate_metrics 30 [(1, [some 1]), (2, [some 1]), (3, [some 1])]
      (some [some 1])).length = 28 ∧
    ((calculate_metrics 30 [(1, [some 1]), (2, [some 1]), (3, [some 1])]
      (some [some 1])).map Prod.fst).Nodup :=
  ⟨by decide, by decide, by decide⟩

/-- C1 (amended): for a bundle in which all three frames and the base-level
array are present and non-empty, `calculate_metrics` returns exactly
3×7 + 7 = 28 distinct keys (7 named metrics per array), and every frame
absent from the frame score set contributes zero keys with that frame's
prefix. -/
theorem C1_theorem (w : ℕ) (a1 a2 a3 b : ScoreArray)
    (h1 : a1 ≠ []) (h2 : a2 ≠ []) (h3 : a3 ≠ []) (hb : b ≠ []) :
    (calculate_metrics w [(1, a1), (2, a2), (3, a3)] (some b)).length = 28 ∧
    ((calculate_metrics w [(1, a1), (2, a2), (3, a3)] (some b)).map Prod.fst).Nodup ∧
    (∀ (pcsf : List (ℕ × ScoreArray)) (p : Option ScoreArray) (f : ℕ),
      (∀ q ∈ pcsf, q.1 = 1 ∨ q.1 = 2 ∨ q.1 = 3) →
      (f = 1 ∨ f = 2 ∨ f = 3) →
      (∀ a, (f, a) ∉ pcsf) →
      ∀ s ∈ metric_suffixes,
        ("phylocsf_frame" ++ toString f ++ s) ∉
          (calculate_metrics w pcsf p).map Prod.fst) := by
  have hrw : calculate_metrics w [(1, a1), (2, a2), (3, a3)] (some b) =
      analyze_score_array w a1 ("phylocsf_frame" ++ toString 1) ++
      (analyze_score_array w a2 ("phylocsf_frame" ++ toString 2) ++
      (analyze_score_array w a3 ("phylocsf_frame" ++ toString 3) ++
      analyze_score_array w b "phylop")) := by
    rw [calculate_metrics_some]
    simp [List.append_assoc]
  refine ⟨?_, ?_, ?_⟩
  · rw [hrw]
    simp [analyze_score_array_length w a1 ("phylocsf_frame" ++ toString 1) h1,
      analyze_score_array_length w a2 ("phylocsf_frame" ++ toString 2) h2,
      analyze_score_array_length w a3 ("phylocsf_frame" ++ toString 3) h3,
      analyze_score_array_length w b "phylop" hb]
  · rw [hrw,
      analyze_score_array_of_ne_nil w a1 ("phylocsf_frame" ++ toString 1) h1,
      analyze_score_array_of_ne_nil w a2 ("phylocsf_frame" ++ toString 2) h2,
      analyze_score_array_of_ne_nil w a3 ("phylocsf_frame" ++ toString 3) h3,
      analyze_score_array_of_ne_nil w b "phylop" hb]
    simp only [List.map_append, List.map_cons, List.map_nil]
    decide
  · exact fun pcsf p f hframes hf habs => frame_prefix_key_not_mem w pcsf p f hframes hf habs

/-- C1 witness: the amended count at a concrete non-empty bundle. -/
theorem C1_witness :
    (calculate_metrics 7 [(1, [some 2, none]), (2, [some 2, none]),
      (3, [some 2, none])] (some [some 2, none])).length = 28 :=
  (C1_theorem 7 [some 2, none] [some 2, none] [some 2, none] [some 2, none]
    (by decide) (by decide) (by decide) (by decide)).1

/-- C2: for an array of length at least `window_size` whose windows all have
a defined nan-aware mean, the `{prefix}_max_window` metric is the maximum of
the window means over every unit offset `0 ≤ i ≤ L − window_size`; and for a
non-empty array shorter than the window the metric is the nan-aware mean of
the whole array. -/
theorem C2_theorem (w : ℕ) (scores : ScoreArray) (pfx : String) (hw : 0 < w) :
    (w ≤ scores.length →
      (∀ i, i ≤ scores.length - w →
        (nanmean ((scores.drop i).take w)).isSome = true) →
      ∃ q : ℚ,
        (analyze_score_array w scores pfx).lookup (pfx ++ "_max_window") =
          some (some q) ∧
        (∃ i, i ≤ scores.length - w ∧
          nanmean ((scores.drop i).take w) = some q) ∧
        (∀ i, i ≤ scores.length - w → ∀ m : ℚ,
          nanmean ((scores.drop i).take w) = some m → m ≤ q)) ∧
    (0 < scores.length → scores.length < w →
      (analyze_score_array w scores pfx).lookup (pfx ++ "_max_window") =
        some (nanmean scores)) := by
  constructor
  · intro hlen hdef
    have hne : scores ≠ [] := by
      intro h
      rw [h] at hlen
      simp at hlen
      omega
    have hnl : ¬ scores.length < w := not_lt.2 hlen
    have hall : ∀ x ∈ get_window_scores w scores, x.isSome = true := by
      rw [get_window_scores_of_ge w scores hnl]
      intro x hx
      simp only [List.mem_map, List.mem_range] at hx
      obtain ⟨i, hi, rfl⟩ := hx
      exact hdef i (by omega)
    obtain ⟨q, hpm, hmem, hub⟩ :=
      py_max_spec _ (get_window_scores_ne_nil_of_ge w scores hnl) hall
    refine ⟨q, ?_, ?_, ?_⟩
    · rw [analyze_lookup_max_window w scores pfx hne,
        max_window_value_of_ge w scores hnl, hpm]
    · rw [get_window_scores_of_ge w scores hnl] at hmem
      simp only [List.mem_map, List.mem_range] at hmem
      obtain ⟨i, hi, hqi⟩ := hmem
      exact ⟨i, by omega, hqi⟩
    · intro i hi m hm
      apply hub
      rw [get_window_scores_of_ge w scores hnl]
      exact List.mem_map.2 ⟨i, List.mem_range.2 (by omega), hm⟩
  · intro hpos hlt
    have hne : scores ≠ [] := by
      intro h
      rw [h] at hpos
      simp at hpos
    rw [analyze_lookup_max_window w scores pfx hne, max_window_value_of_lt w scores hlt]

/-- C2 witness: the sliding-window characterization at a concrete array. -/
theorem C2_witness :
    ∃ q : ℚ,
      (analyze_score_array 2 [some 1, some 1, some 1] "p").lookup
        ("p" ++ "_max_window") = some (some q) ∧
      (∃ i, i ≤ ([some (1:ℚ), some 1, some 1] : ScoreArray).length - 2 ∧
        nanmean ((([some (1:ℚ), some 1, some 1] : ScoreArray).drop i).take 2) = some q) ∧
      (∀ i, i ≤ ([some (1:ℚ), some 1, some 1] : ScoreArray).length - 2 → ∀ m : ℚ,
        nanmean ((([some (1:ℚ), some 1, some 1] : ScoreArray).drop i).take 2) = some m →
          m ≤ q) :=
  (C2_theorem 2 [some 1, some 1, some 1] "p" (by decide)).1 (by decide) (by decide)

/-- C3: `_get_longest_positive_run` returns the length of the longest
contiguous all-positive (non-missing, strictly greater than 0) run: such a
run of that length exists in the array, no such run is longer, the reference
example `[1,2,-1,3,4,5,-1]` yields 3, and an all-missing array yields 0. -/
theorem C3_theorem (scores : ScoreArray) :
    (∃ pre run post, scores = pre ++ run ++ post ∧
      run.length = get_longest_positive_run scores ∧ ∀ v ∈ run, is_pos v = true) ∧
    (∀ pre run post, scores = pre ++ run ++ post →
      (∀ v ∈ run, is_pos v = true) →
      run.length ≤ get_longest_positive_run scores) ∧
    get_longest_positive_run
      [some 1, some 2, some (-1), some 3, some 4, some 5, some (-1)] = 3 ∧
    (∀ n, get_longest_positive_run (List.replicate n (none : ScoreVal)) = 0) := by
  refine ⟨?_, ?_, ?_, ?_⟩
  · rw [get_longest_positive_run_eq_best_run]
    exact best_run_exists scores
  · intro pre run post hsplit hpos
    rw [get_longest_positive_run_eq_best_run, hsplit]
    exact best_run_ub pre run post hpos
  · decide
  · intro n
    rw [get_longest_positive_run_eq_best_run]
    induction n with
    | zero => rfl
    | succ k ih =>
      simp [List.replicate_succ, best_run, lead_run,
        show is_pos none = false from rfl, ih]

/-- C3 witness: the upper-bound component applied at a concrete array and
run decomposition. -/
theorem C3_witness : ([some (2:ℚ)] : ScoreArray).length ≤
    get_longest_positive_run [some (2:ℚ)] :=
  (C3_theorem [some 2]).2.1 [] [some 2] [] rfl (by decide)

/-- C5: an empty score array yields an empty metric mapping; a `None`
base-level array contributes exactly as much as an empty one (zero entries,
and no key with the `phylop` prefix appears); an absent frame contributes
zero keys with that frame's prefix. -/
theorem C5_theorem :
    (∀ (w : ℕ) (pfx : String), analyze_score_array w [] pfx = []) ∧
    (∀ (w : ℕ) (pcsf : List (ℕ × ScoreArray)),
      calculate_metrics w pcsf none = calculate_metrics w pcsf (some [])) ∧
    (∀ (w : ℕ) (pcsf : List (ℕ × ScoreArray)),
      (∀ q ∈ pcsf, q.1 = 1 ∨ q.1 = 2 ∨ q.1 = 3) →
      ∀ s ∈ metric_suffixes,
        ("phylop" ++ s) ∉ (calculate_metrics w pcsf none).map Prod.fst) ∧
    (∀ (w : ℕ) (pcsf : List (ℕ × ScoreArray)) (p : Option ScoreArray) (f : ℕ),
      (∀ q ∈ pcsf, q.1 = 1 ∨ q.1 = 2 ∨ q.1 = 3) →
      (f = 1 ∨ f = 2 ∨ f = 3) →
      (∀ a, (f, a) ∉ pcsf) →
      ∀ s ∈ metric_suffixes,
        ("phylocsf_frame" ++ toString f ++ s) ∉
          (calculate_metrics w pcsf p).map Prod.fst) := by
  refine ⟨fun w pfx => rfl, ?_, ?_, ?_⟩
  · intro w pcsf
    rw [calculate_metrics_none, calculate_metrics_some]
    simp [analyze_score_array]
  · exact fun w pcsf hframes => phylop_key_not_mem w pcsf hframes
  · exact fun w pcsf p f hframes hf habs =>
      frame_prefix_key_not_mem w pcsf p f hframes hf habs

/-- C5 witness: no `phylop`-prefixed key appears when the base-level array
is absent, at a concrete bundle. -/
theorem C5_witness :
    ("phylop" ++ "_mean") ∉
      (calculate_metrics 30 [(1, [some 1])] none).map Prod.fst :=
  C5_theorem.2.2.1 30 [(1, [some 1])] (by decide) "_mean" (by decide)

/-- C4: a score lookup yields `none` ("unavailable") whenever the normalized
chromosome is not in the track's catalog, the start is negative, the end
exceeds the declared chromosome length, or the underlying retrieval faults;
and a `none` lookup is omitted from the bundle (the frame does not appear,
the base-level entry is `none`).  `get_scores` is a total function into
`Option`, so no exception ever propagates to the caller. -/
theorem C4_theorem :
    (∀ (bw : BigWigFile) (chrom : String) (start stop : ℤ),
      normalize_chrom chrom ∉ bw.chroms_list.map Prod.fst →
      get_scores bw chrom start stop = none) ∧
    (∀ (bw : BigWigFile) (chrom : String) (start stop : ℤ),
      start < 0 → get_scores bw chrom start stop = none) ∧
    (∀ (bw : BigWigFile) (chrom : String) (start stop : ℤ) (len : ℕ),
      bw.chroms_list.lookup (normalize_chrom chrom) = some len →
      (len : ℤ) < stop → get_scores bw chrom start stop = none) ∧
    (∀ (bw : BigWigFile) (chrom : String) (start stop : ℤ) (msg : String),
      bw.values (normalize_chrom chrom) start stop = Except.error msg →
      get_scores bw chrom start stop = none) ∧
    (∀ (t : Tracker) (chrom : String) (start stop : ℤ) (strand : String)
        (frame : ℕ) (arr : ScoreArray),
      (frame, arr) ∈ (get_conservation_scores t chrom start stop strand).1 →
      ∃ bw, t.phylocsf_tracks.lookup (strand ++ toString frame) = some bw ∧
        get_scores bw chrom start stop = some arr) ∧
    (∀ (t : Tracker) (chrom : String) (start stop : ℤ) (strand : String),
      get_scores t.phylop_track chrom start stop = none →
      (get_conservation_scores t chrom start stop strand).2 = none) := by
  refine ⟨?_, ?_, ?_, ?_, ?_, ?_⟩
  · intro bw chrom start stop h
    simp [get_scores, lookup_eq_none_of_not_mem h]
  · intro bw chrom start stop hstart
    cases hl : bw.chroms_list.lookup (normalize_chrom chrom) with
    | none => simp [get_scores, hl]
    | some len => simp [get_scores, hl, hstart]
  · intro bw chrom start stop len hl hgt
    simp [get_scores, hl, hgt]
  · intro bw chrom start stop msg hv
    cases hl : bw.chroms_list.lookup (normalize_chrom chrom) with
    | none => simp [get_scores, hl]
    | some len =>
      by_cases hc : start < 0 ∨ (len : ℤ) < stop
      · simp [get_scores, hl, hc]
      · simp [get_scores, hl, hc, hv]
  · intro t chrom start stop strand frame arr hmem
    simp only [get_conservation_scores, List.mem_filterMap] at hmem
    obtain ⟨f, _, hmatch⟩ := hmem
    cases hl : t.phylocsf_tracks.lookup (strand ++ toString f) with
    | none =>
      rw [hl] at hmatch
      exact Option.noConfusion hmatch
    | some bw =>
      rw [hl] at hmatch
      have hmatch' : (get_scores bw chrom start stop).map (fun s => (f, s)) =
          some (frame, arr) := hmatch
      cases hg : get_scores bw chrom start stop with
      | none =>
        rw [hg] at hmatch'
        exact Option.noConfusion hmatch'
      | some s =>
        rw [hg] at hmatch'
        simp only [Option.map_some', Option.some.injEq, Prod.mk.injEq] at hmatch'
        obtain ⟨rfl, rfl⟩ := hmatch'
        exact ⟨bw, hl, hg⟩
  · intro t chrom start stop strand h
    simpa [get_conservation_scores] using h

/-- C4 witness: a negative start yields an unavailable lookup at a concrete
track. -/
theorem C4_witness :
    get_scores ⟨[("chr1", 10)], fun _ _ _ => Except.ok []⟩ "chr1" (-1) 5 = none :=
  C4_theorem.2.1 ⟨[("chr1", 10)], fun _ _ _ => Except.ok []⟩ "chr1" (-1) 5 (by decide)

/-- C6: chromosome-name normalization adds the `chr` prefix exactly when it
is missing, so `"1"` and `"chr1"` resolve to the same key; normalization is
idempotent; and the single normalized form is what the catalog membership
test, the declared-length lookup, and the values retrieval all receive. -/
theorem C6_theorem :
    normalize_chrom "1" = "chr1" ∧ normalize_chrom "chr1" = "chr1" ∧
    (∀ s, normalize_chrom (normalize_chrom s) = normalize_chrom s) ∧
    (∀ (bw : BigWigFile) (c : String) (start stop : ℤ),
      get_scores bw c start stop = get_scores bw (normalize_chrom c) start stop) ∧
    (∀ (bw : BigWigFile) (c : String) (start stop : ℤ) (arr : ScoreArray),
      get_scores bw c start stop = some arr →
      normalize_chrom c ∈ bw.chroms_list.map Prod.fst ∧
      bw.values (normalize_chrom c) start stop = Except.ok arr) := by
  have hidem : ∀ s, normalize_chrom (normalize_chrom s) = normalize_chrom s := by
    intro s
    unfold normalize_chrom
    by_cases h : startswith s "chr" = true
    · simp [h]
    · simp [h, startswith_append_self]
  refine ⟨by decide, by decide, hidem, ?_, ?_⟩
  · intro bw c start stop
    simp only [get_scores, hidem c]
  · intro bw c start stop arr h
    cases hl : bw.chroms_list.lookup (normalize_chrom c) with
    | none => simp [get_scores, hl] at h
    | some len =>
      by_cases hc : start < 0 ∨ (len : ℤ) < stop
      · simp [get_scores, hl, hc] at h
      · cases hv : bw.values (normalize_chrom c) start stop with
        | error msg => simp [get_scores, hl, hc, hv] at h
        | ok s =>
          refine ⟨mem_of_lookup_eq_some hl, ?_⟩
          have hgs : get_scores bw c start stop = some s := by
            simp [get_scores, hl, hc, hv]
          rw [hgs] at h
          rw [Option.some.inj h]

/-- C6 witness: a successful lookup with an un-prefixed name went through
the catalog and the values function under the normalized name. -/
theorem C6_witness :
    normalize_chrom "1" ∈
      ((⟨[("chr1", 10)], fun _ _ _ => Except.ok []⟩ : BigWigFile)).chroms_list.map
        Prod.fst ∧
    ((⟨[("chr1", 10)], fun _ _ _ => Except.ok []⟩ : BigWigFile)).values
      (normalize_chrom "1") 0 5 = Except.ok [] :=
  C6_theorem.2.2.2.2 ⟨[("chr1", 10)], fun _ _ _ => Except.ok []⟩ "1" 0 5 []
    (by decide)

/-- C7: `write_scored_bed` rescales the score column by min-max
normalization over the full dataset (value minus min over max minus min,
times 1000, floored, clamped to `[0, 1000]`) and emits exactly the six
columns chrom, chromStart, chromEnd, name, normalized score, strand, one
output row per input row; scores `[10, 20, 30]` normalize to
`[0, 500, 1000]`. -/
theorem C7_theorem :
    (∀ df : List BedRow,
      write_scored_bed df 1000 = df.map (fun r =>
        (r.chrom, r.chromStart, r.chromEnd, r.name,
          spec_minmax_score (col_min (df.map (fun x => x.conservation_score)))
            (col_max (df.map (fun x => x.conservation_score)))
            r.conservation_score,
          r.strand))) ∧
    write_scored_bed
      [⟨"chr1", 0, 10, "a", 10, "+"⟩, ⟨"chr1", 10, 20, "b", 20, "+"⟩,
        ⟨"chr1", 20, 30, "c", 30, "+"⟩] 1000 =
      [("chr1", 0, 10, "a", 0, "+"), ("chr1", 10, 20, "b", 500, "+"),
        ("chr1", 20, 30, "c", 1000, "+")] := by
  constructor
  · intro df
    rfl
  · have hmin : col_min [(10 : ℚ), 20, 30] = 10 := by
      norm_num [col_min, List.foldl_cons, List.foldl_nil, min_def]
    have hmax : col_max [(10 : ℚ), 20, 30] = 30 := by
      norm_num [col_max, List.foldl_cons, List.foldl_nil, max_def]
    simp only [write_scored_bed, List.map_cons, List.map_nil, normalize_score]
    rw [hmin, hmax]
    norm_num [int_clip, min_def, max_def]

/-- C8 counterexample: the min-max normalization in `write_scored_bed` is
NOT guarded against an all-equal score column: the divisor
`max(score) − min(score)` it divides by is 0 for such a column. -/
theorem C8_counterexample :
    score_denominator
      (([⟨"chr1", 0, 10, "a", 5, "+"⟩, ⟨"chr1", 10, 20, "b", 5, "+"⟩] :
        List BedRow).map (fun r => r.conservation_score)) = 0 := by
  norm_num [score_denominator, col_min, col_max, min_def, max_def]

/-- C8 (amended): the degenerate `max = min` case is not guarded —
`write_scored_bed` divides by `max − min` even when that divisor is 0.  In
this exact-rational embedding, where division by zero is total with
`x / 0 = 0`, an all-equal score column therefore yields normalized score 0
for every record, and the six-column output is still produced (in IEEE
floating point the same division yields NaN instead). -/
theorem C8_theorem (df : List BedRow) (c : ℚ) (hne : df ≠ [])
    (hall : ∀ r ∈ df, r.conservation_score = c) :
    score_denominator (df.map (fun r => r.conservation_score)) = 0 ∧
    write_scored_bed df 1000 = df.map (fun r =>
      (r.chrom, r.chromStart, r.chromEnd, r.name, (0 : ℤ), r.strand)) := by
  have hcolne : df.map (fun r => r.conservation_score) ≠ [] := by
    cases df with
    | nil => exact absurd rfl hne
    | cons r rs => simp
  have hmemc : ∀ y ∈ df.map (fun r => r.conservation_score), y = c := by
    intro y hy
    obtain ⟨r, hr, rfl⟩ := List.mem_map.1 hy
    exact hall r hr
  have hmin := col_min_const _ c hcolne hmemc
  have hmax := col_max_const _ c hcolne hmemc
  constructor
  · rw [score_denominator, hmin, hmax, sub_self]
  · unfold write_scored_bed
    refine List.map_congr_left ?_
    intro r hr
    have hsc :
        normalize_score (df.map (fun x => x.conservation_score)) 1000
          r.conservation_score = 0 := by
      rw [normalize_score, hmin, hmax, hall r hr, sub_self]
      norm_num [int_clip, min_def, max_def]
    rw [hsc]

/-- C8 witness: the zero divisor and the all-zero normalized output at a
concrete all-equal dataframe. -/
theorem C8_witness :
    score_denominator
      (([⟨"chr1", 0, 10, "a", 5, "+"⟩, ⟨"chr2", 10, 20, "b", 5, "-"⟩] :
        List BedRow).map (fun r => r.conservation_score)) = 0 ∧
    write_scored_bed
      ([⟨"chr1", 0, 10, "a", 5, "+"⟩, ⟨"chr2", 10, 20, "b", 5, "-"⟩] :
        List BedRow) 1000 =
      ([⟨"chr1", 0, 10, "a", 5, "+"⟩, ⟨"chr2", 10, 20, "b", 5, "-"⟩] :
        List BedRow).map (fun r =>
          (r.chrom, r.chromStart, r.chromEnd, r.name, (0 : ℤ), r.strand)) :=
  C8_theorem [⟨"chr1", 0, 10, "a", 5, "+"⟩, ⟨"chr2", 10, 20, "b", 5, "-"⟩] 5
    (by simp) (by simp)

/-- C9: the deduplicator leaves the first occurrence of every name
unmodified and rewrites the k-th duplicate occurrence (1-based) to
`name_dup{k}`, counting among the previously processed name fields; names
`a, b, a, a` become `a, b, a_dup1, a_dup2`. -/
theorem C9_theorem :
    (∀ lines : List (List String), make_names_unique lines = spec_rename [] lines) ∧
    make_names_unique
      [["chr1", "0", "10", "a"], ["chr1", "10", "20", "b"],
        ["chr1", "20", "30", "a"], ["chr1", "30", "40", "a"]] =
      [["chr1", "0", "10", "a"], ["chr1", "10", "20", "b"],
        ["chr1", "20", "30", "a_dup1"], ["chr1", "30", "40", "a_dup2"]] := by
  constructor
  · intro lines
    exact process_lines_eq_spec_rename lines [] [] (fun n => rfl)
  · decide

/-- C10: the deduplicator writes exactly one output line per input line in
the original order, preserves every field except the fourth (and each
line's field count), and passes lines with fewer than four fields through
unchanged. -/
theorem C10_theorem (lines : List (List String)) :
    (make_names_unique lines).length = lines.length ∧
    (∀ i j, j ≠ 3 →
      ((make_names_unique lines).getD i []).getD j "" =
        (lines.getD i []).getD j "") ∧
    (∀ i, ((make_names_unique lines).getD i []).length =
      (lines.getD i []).length) ∧
    (∀ i, (lines.getD i []).length < 4 →
      (make_names_unique lines).getD i [] = lines.getD i []) := by
  simp only [make_names_unique]
  have hf := process_lines_shape lines []
  obtain ⟨hlen, hget⟩ := List.forall₂_iff_get.1 hf
  have hkey : ∀ i, i < lines.length →
      (lines.getD i []).length = ((process_lines [] lines).getD i []).length ∧
      (∀ j, j ≠ 3 → (lines.getD i []).getD j "" =
        ((process_lines [] lines).getD i []).getD j "") ∧
      ((lines.getD i []).length < 4 →
        (process_lines [] lines).getD i [] = lines.getD i []) := by
    intro i hi
    have hi' : i < (process_lines [] lines).length := by omega
    have hr := hget i hi hi'
    simp only [List.get_eq_getElem] at hr
    have e1 : lines.getD i [] = lines[i] := by
      simp [List.getD, List.getElem?_eq_getElem hi]
    have e2 : (process_lines [] lines).getD i [] = (process_lines [] lines)[i] := by
      simp [List.getD, List.getElem?_eq_getElem hi']
    rw [e1, e2]
    exact ⟨hr.1, hr.2.1, hr.2.2⟩
  refine ⟨by omega, ?_, ?_, ?_⟩
  · intro i j hj
    by_cases hi : i < lines.length
    · exact ((hkey i hi).2.1 j hj).symm
    · have e1 : (process_lines [] lines).getD i [] = [] :=
        List.getD_eq_default _ _ (by omega)
      have e2 : lines.getD i [] = [] := List.getD_eq_default _ _ (by omega)
      rw [e1, e2]
  · intro i
    by_cases hi : i < lines.length
    · exact ((hkey i hi).1).symm
    · have e1 : (process_lines [] lines).getD i [] = [] :=
        List.getD_eq_default _ _ (by omega)
      have e2 : lines.getD i [] = [] := List.getD_eq_default _ _ (by omega)
      rw [e1, e2]
  · intro i hlt
    by_cases hi : i < lines.length
    · exact (hkey i hi).2.2 hlt
    · have e1 : (process_lines [] lines).getD i [] = [] :=
        List.getD_eq_default _ _ (by omega)
      have e2 : lines.getD i [] = [] := List.getD_eq_default _ _ (by omega)
      rw [e1, e2]

/-- C10 witness: fields other than the fourth are preserved at a concrete
line. -/
theorem C10_witness :
    ((make_names_unique [c10_line]).getD 0 []).getD 4 "" =
      (([c10_line] : List (List String)).getD 0 []).getD 4 "" :=
  (C10_theorem [c10_line]).2.1 0 4 (by decide)
